import Mathlib

/-!
# Verification of the `coginlex` hypergraph builder and query engine

Shallow embedding of `src/hypergraph/build_hypergraph.py` and
`src/hypergraph/query_hypergraph.py`.

Modelling conventions:
* Python floats are modelled as rationals (`ℚ`); `round(x, 4)` is modelled as
  round-half-to-even at 4 decimal digits (`round4`), Python's documented
  rounding mode.
* Python dicts carrying record data are modelled as structures whose optional
  keys are `Option` fields; `d.get(k, default)` becomes `field.getD default`,
  and `d[k]` on a possibly-missing key becomes a `match` whose `none` branch
  is the build-level failure (Python `KeyError`).
* `networkx.MultiDiGraph` is modelled as a node association list (insertion
  order) plus an edge list in insertion order; parallel-edge keys `0, 1, ...`
  are positions in the per-pair sublist, so key `0` is the first-inserted
  parallel edge.  `graph.add_edge` is only ever called by this code base under
  a `has_node` guard on both endpoints, so its node-autocreation behaviour is
  unreachable and the model appends to the edge list only.
* `nx.shortest_path` / `nx.all_simple_paths` are external library calls,
  modelled from their documented semantics (an unweighted shortest path;
  all simple paths of at most `cutoff` edges, none when source equals target).
-/

namespace Coginlex

/-- Round-half-to-even of a rational to an integer (Python's `round` mode). -/
def roundHalfEven (q : ℚ) : ℤ :=
  if q - ⌊q⌋ < 1/2 then ⌊q⌋
  else if 1/2 < q - ⌊q⌋ then ⌊q⌋ + 1
  else if ⌊q⌋ % 2 = 0 then ⌊q⌋ else ⌊q⌋ + 1

/-- Model of Python `round(x, 4)` on our rational model of floats. -/
def round4 (q : ℚ) : ℚ := (roundHalfEven (q * 10000) : ℚ) / 10000

theorem floor_le_roundHalfEven (q : ℚ) : ⌊q⌋ ≤ roundHalfEven q := by
  unfold roundHalfEven
  split_ifs <;> omega

theorem roundHalfEven_le_floor_add_one (q : ℚ) : roundHalfEven q ≤ ⌊q⌋ + 1 := by
  unfold roundHalfEven
  split_ifs <;> omega

theorem roundHalfEven_mono {x y : ℚ} (h : x ≤ y) :
    roundHalfEven x ≤ roundHalfEven y := by
  have hfl : ⌊x⌋ ≤ ⌊y⌋ := Int.floor_mono h
  rcases eq_or_lt_of_le hfl with hf | hf
  · have h1 : x - (⌊x⌋ : ℚ) ≤ y - (⌊x⌋ : ℚ) := by linarith
    unfold roundHalfEven
    rw [← hf]
    split_ifs <;> first | omega | linarith
  · have h1 := roundHalfEven_le_floor_add_one x
    have h2 := floor_le_roundHalfEven y
    omega

theorem round4_mono {x y : ℚ} (h : x ≤ y) : round4 x ≤ round4 y := by
  have h1 : x * 10000 ≤ y * 10000 := by linarith
  have h2 := roundHalfEven_mono h1
  have h3 : ((roundHalfEven (x * 10000) : ℤ) : ℚ) ≤
      ((roundHalfEven (y * 10000) : ℤ) : ℚ) := by exact_mod_cast h2
  unfold round4
  linarith

/-- An integer rational divided by `10000` times `10000` rounds to itself;
in particular `round4` fixes rationals with at most four decimal digits. -/
theorem roundHalfEven_intCast (n : ℤ) : roundHalfEven (n : ℚ) = n := by
  unfold roundHalfEven
  rw [Int.floor_intCast]
  simp

theorem round4_of_den_dvd (q : ℚ) (n : ℤ) (h : q * 10000 = (n : ℚ)) :
    round4 q = q := by
  unfold round4
  rw [h, roundHalfEven_intCast]
  field_simp at h ⊢
  linarith

/-- Edge payload attached to a chain step by `build_inference_chain`
(the `edge_to_next` sub-dict). -/
structure EdgeToNext where
  ty : String
  inference_ty : String
  confidence_impact : ℚ
  deriving DecidableEq

/-- One step of an inference chain, as built by `build_inference_chain`
(a Python dict with keys `step`, `id`, `name`, `type`, `level`,
`confidence` and optionally `edge_to_next`). -/
structure ChainItem where
  step : Nat
  id : String
  name : String
  ty : String
  level : Int
  confidence : ℚ
  edge_to_next : Option EdgeToNext
  deriving DecidableEq

/-- Model of `HypergraphQuery.compute_path_confidence`: start from 1.0, multiply each
item's `confidence` and, when present, its `edge_to_next.confidence_impact`;
finally `round(confidence, 4)`. -/
def compute_path_confidence (path : List ChainItem) : ℚ :=
  round4 (path.foldl
    (fun confidence item =>
      let c := confidence * item.confidence
      match item.edge_to_next with
      | some e => c * e.confidence_impact
      | none => c)
    1)

/-- The raw (unrounded) running product of `compute_path_confidence`,
starting from an arbitrary accumulator. -/
def rawConfidenceFrom (acc : ℚ) (path : List ChainItem) : ℚ :=
  path.foldl
    (fun confidence item =>
      let c := confidence * item.confidence
      match item.edge_to_next with
      | some e => c * e.confidence_impact
      | none => c)
    acc

/-- The multiplicative factor a single chain item contributes. -/
def itemFactor (item : ChainItem) : ℚ :=
  item.confidence * (match item.edge_to_next with
    | some e => e.confidence_impact
    | none => 1)

theorem rawConfidenceFrom_nil (acc : ℚ) : rawConfidenceFrom acc [] = acc := rfl

theorem rawConfidenceFrom_cons (acc : ℚ) (x : ChainItem) (l : List ChainItem) :
    rawConfidenceFrom acc (x :: l) = rawConfidenceFrom (acc * itemFactor x) l := by
  cases h : x.edge_to_next with
  | none =>
      simp [rawConfidenceFrom, itemFactor, h]
  | some e =>
      simp [rawConfidenceFrom, itemFactor, h, mul_assoc]

theorem rawConfidenceFrom_eq_mul (acc : ℚ) (l : List ChainItem) :
    rawConfidenceFrom acc l = acc * rawConfidenceFrom 1 l := by
  induction l generalizing acc with
  | nil => simp [rawConfidenceFrom_nil]
  | cons x l ih =>
      rw [rawConfidenceFrom_cons, rawConfidenceFrom_cons, ih,
        ih (1 * itemFactor x)]
      ring

theorem compute_path_confidence_eq_round4 (l : List ChainItem) :
    compute_path_confidence l = round4 (rawConfidenceFrom 1 l) := rfl

/-- The raw product splits as (product of node confidences) *
(product of the present `confidence_impact`s). -/
theorem rawConfidence_eq_prod (l : List ChainItem) :
    rawConfidenceFrom 1 l =
      (l.map (fun item => item.confidence)).prod *
        (l.filterMap (fun item =>
          (item.edge_to_next).map (fun e => e.confidence_impact))).prod := by
  induction l with
  | nil => simp [rawConfidenceFrom_nil]
  | cons x l ih =>
      rw [rawConfidenceFrom_cons, rawConfidenceFrom_eq_mul, ih]
      cases h : x.edge_to_next with
      | none => simp [itemFactor, h]; ring
      | some e => simp [itemFactor, h]; ring

/-! ## Ingest payload records

Each record models the corresponding Python dict; keys read with
`dict.get(k, default)` (or guarded by `'k' in d`) in the source are `Option`
fields, keys read with `d[k]` (a `KeyError` when absent) are plain fields.
The dict key `type`/`inference_type` is spelled `ty`/`inference_ty` here. -/

/-- A record of the `nodes.principles` group. -/
structure PrincipleT where
  node_id : String
  name : Option String
  description : Option String
  domains : Option (List String)
  confidence : Option ℚ
  provenance : Option String
  inference_ty : Option String
  application_context : Option String
  deriving DecidableEq

/-- A record of the `nodes.rules` group. -/
structure RuleT where
  node_id : String
  level : Option Int
  name : Option String
  description : Option String
  jurisdiction : Option String
  legal_domain : Option String
  confidence : Option ℚ
  derived_from : Option (List String)
  inference_ty : Option String
  deriving DecidableEq

/-- A record of the `nodes.concepts` group. -/
structure ConceptT where
  node_id : String
  name : Option String
  description : Option String
  domains : Option (List String)
  deriving DecidableEq

/-- A record of the `nodes.domains` group. -/
structure DomainT where
  node_id : String
  name : Option String
  deriving DecidableEq

/-- A record of the `hyperedges.relationships` group
(`source_node` is read with `rel['source_node']`, hence required). -/
structure RelT where
  source_node : String
  target_nodes : Option (List String)
  target_node : Option String
  relationship_name : Option String
  strength : Option ℚ
  hyperedge_id : Option String
  deriving DecidableEq

/-- A record of the `hyperedges.derivations` group. -/
structure DerivT where
  source_nodes : Option (List String)
  target_node : Option String
  inference_ty : Option String
  confidence_impact : Option ℚ
  hyperedge_id : Option String
  description : Option String
  deriving DecidableEq

/-- An entry of the retained `self.hyperedges` list (heterogeneous in Python). -/
inductive Hyperedge where
  | rel (r : RelT)
  | deriv (d : DerivT)
  deriving DecidableEq

/-- The ingest payload: `data['nodes'][...]` / `data['hyperedges'][...]`.
A missing group is `none`; accessing it with `[...]` is a `KeyError`. -/
structure IngestPayload where
  principles : Option (List PrincipleT)
  rules : Option (List RuleT)
  concepts : Option (List ConceptT)
  domains : Option (List DomainT)
  relationships : Option (List RelT)
  derivations : Option (List DerivT)

/-! ## The graph model

`networkx.MultiDiGraph` is modelled as an association list of node
attribute records (`add_node` order) plus an edge list in insertion order. -/

/-- A node attribute dict.  Every adder provides `node_type`; the other
attributes are present only when the corresponding adder set them. -/
structure NodeData where
  node_type : String
  level : Option Int
  name : Option String
  description : Option String
  domains : Option (List String)
  confidence : Option ℚ
  provenance : Option String
  inference_ty : Option String
  application_context : Option String
  jurisdiction : Option String
  legal_domain : Option String
  derived_from : Option (List String)
  deriving DecidableEq

/-- Model of `dict.update` on attribute dicts: fields the new record provides win. -/
def NodeData.merge (old new : NodeData) : NodeData where
  node_type := new.node_type
  level := new.level <|> old.level
  name := new.name <|> old.name
  description := new.description <|> old.description
  domains := new.domains <|> old.domains
  confidence := new.confidence <|> old.confidence
  provenance := new.provenance <|> old.provenance
  inference_ty := new.inference_ty <|> old.inference_ty
  application_context := new.application_context <|> old.application_context
  jurisdiction := new.jurisdiction <|> old.jurisdiction
  legal_domain := new.legal_domain <|> old.legal_domain
  derived_from := new.derived_from <|> old.derived_from

/-- An edge attribute dict (relationship or derivation edges). -/
structure EdgeData where
  edge_type : String
  relationship_name : Option String
  strength : Option ℚ
  hyperedge_id : Option String
  inference_ty : Option String
  confidence_impact : Option ℚ
  description : Option String
  deriving DecidableEq

/-- The multi-digraph: nodes in `add_node` order, edges in `add_edge` order
(the per-pair parallel-edge keys `0, 1, ...` are positions in the sublist of
edges with that source/target pair). -/
structure Graph where
  nodes : List (String × NodeData)
  edges : List (String × String × EdgeData)
  deriving DecidableEq

def Graph.hasNode (g : Graph) (id : String) : Bool :=
  g.nodes.any (fun p => p.1 = id)

/-- Model of `graph.add_node(id, **attrs)`: append a fresh node, or update the
attribute dict of an existing one. -/
def Graph.addNode (g : Graph) (id : String) (d : NodeData) : Graph :=
  if g.hasNode id then
    { g with nodes := g.nodes.map (fun p => if p.1 = id then (p.1, p.2.merge d) else p) }
  else
    { g with nodes := g.nodes ++ [(id, d)] }

/-- Model of `graph.add_edge(u, v, **attrs)`.  In networkx this would auto-create
missing endpoint nodes, but every call site in this code base guards it with
`has_node` on both endpoints, so the model only appends the edge. -/
def Graph.addEdge (g : Graph) (u v : String) (d : EdgeData) : Graph :=
  { g with edges := g.edges ++ [(u, v, d)] }

def Graph.getNode? (g : Graph) (id : String) : Option NodeData :=
  (g.nodes.find? (fun p => p.1 = id)).map (fun p => p.2)

/-- An empty attribute dict standing in for `graph.nodes[id]` on a missing
node (a `KeyError` in Python; unreachable in the guarded uses below). -/
def emptyNodeData : NodeData :=
  ⟨"", none, none, none, none, none, none, none, none, none, none, none⟩

def Graph.getNode (g : Graph) (id : String) : NodeData :=
  (g.getNode? id).getD emptyNodeData

/-! ## The name index -/

/-- Model of `self.node_index`: a name → node_id dict, modelled as an association
list where the newest binding for a key stands first (last write wins). -/
def ixSet (ix : List (String × String)) (k v : String) : List (String × String) :=
  (k, v) :: ix.filter (fun p => p.1 ≠ k)

def ixLookup (ix : List (String × String)) (k : String) : Option String :=
  (ix.find? (fun p => p.1 = k)).map (fun p => p.2)

/-- Model of `self.node_index.get(s, s)`: resolve-or-pass-through. -/
def ixResolve (ix : List (String × String)) (s : String) : String :=
  (ixLookup ix s).getD s

/-- Python truthiness of a `node_index.get(name)` result, as used in
`if not principle_id:` — both a missing key and an empty-string id count
as unresolved. -/
def truthyId (o : Option String) : Option String :=
  match o with
  | some s => if s = "" then none else some s
  | none => none

/-! ## The builder (`SCMLexHypergraph`) -/

/-- The builder/snapshot state: graph, retained hyperedges, name index
(the `stats` dict is derived output not involved in any claim). -/
structure HG where
  graph : Graph
  hyperedges : List Hyperedge
  node_index : List (String × String)
  deriving DecidableEq

def HG.empty : HG := ⟨⟨[], []⟩, [], []⟩

/-- The attribute dict `_add_principles` passes to `graph.add_node`. -/
def principleNodeData (p : PrincipleT) : NodeData where
  node_type := "principle"
  level := some 1
  name := some (p.name.getD "")
  description := some (p.description.getD "")
  domains := some (p.domains.getD [])
  confidence := some (p.confidence.getD 1)
  provenance := some (p.provenance.getD "")
  inference_ty := some (p.inference_ty.getD "")
  application_context := some (p.application_context.getD "")
  jurisdiction := none
  legal_domain := none
  derived_from := none

/-- The attribute dict `_add_rules` passes to `graph.add_node`. -/
def ruleNodeData (r : RuleT) : NodeData where
  node_type := "rule"
  level := some (r.level.getD 2)
  name := some (r.name.getD "")
  description := some (r.description.getD "")
  domains := none
  confidence := some (r.confidence.getD (95/100))
  provenance := none
  inference_ty := some (r.inference_ty.getD "deductive")
  application_context := none
  jurisdiction := some (r.jurisdiction.getD "")
  legal_domain := some (r.legal_domain.getD "")
  derived_from := some (r.derived_from.getD [])

/-- The attribute dict `_add_concepts` passes to `graph.add_node`. -/
def conceptNodeData (c : ConceptT) : NodeData where
  node_type := "concept"
  level := none
  name := some (c.name.getD "")
  description := some (c.description.getD "")
  domains := some (c.domains.getD [])
  confidence := none
  provenance := none
  inference_ty := none
  application_context := none
  jurisdiction := none
  legal_domain := none
  derived_from := none

/-- The attribute dict `_add_domains` passes to `graph.add_node`. -/
def domainNodeData (d : DomainT) : NodeData where
  node_type := "domain"
  level := none
  name := some (d.name.getD "")
  description := none
  domains := none
  confidence := none
  provenance := none
  inference_ty := none
  application_context := none
  jurisdiction := none
  legal_domain := none
  derived_from := none

/-- The index update `if 'name' in rec: node_index[rec['name']] = node_id`. -/
def indexWith (ix : List (String × String)) (name : Option String)
    (node_id : String) : List (String × String) :=
  match name with
  | some n => ixSet ix n node_id
  | none => ix

/-- One iteration of `_add_principles`'s loop. -/
def addPrinciple (h : HG) (p : PrincipleT) : HG :=
  { h with
    graph := h.graph.addNode p.node_id (principleNodeData p)
    node_index := indexWith h.node_index p.name p.node_id }

/-- One iteration of `_add_rules`'s loop. -/
def addRule (h : HG) (r : RuleT) : HG :=
  { h with
    graph := h.graph.addNode r.node_id (ruleNodeData r)
    node_index := indexWith h.node_index r.name r.node_id }

/-- One iteration of `_add_concepts`'s loop. -/
def addConcept (h : HG) (c : ConceptT) : HG :=
  { h with
    graph := h.graph.addNode c.node_id (conceptNodeData c)
    node_index := indexWith h.node_index c.name c.node_id }

/-- One iteration of `_add_domains`'s loop. -/
def addDomain (h : HG) (d : DomainT) : HG :=
  { h with
    graph := h.graph.addNode d.node_id (domainNodeData d)
    node_index := indexWith h.node_index d.name d.node_id }

/-- The target list normalization of `_add_relationships`:
`rel.get('target_nodes', [rel.get('target_node')])`.  A missing
`target_node` puts Python `None` in the list, modelled as `none`. -/
def relTargets (rel : RelT) : List (Option String) :=
  match rel.target_nodes with
  | some l => l.map some
  | none => [rel.target_node]

/-- The attribute dict attached to each relationship edge. -/
def relEdgeData (rel : RelT) : EdgeData where
  edge_type := "relationship"
  relationship_name := some (rel.relationship_name.getD "related-to")
  strength := some (rel.strength.getD (9/10))
  hyperedge_id := some (rel.hyperedge_id.getD "")
  inference_ty := none
  confidence_impact := none
  description := none

/-- The body of `_add_relationships`'s inner target loop: resolve source and
target through the index, add the edge only when both resolved ids are
existing nodes (a `None` target never resolves). -/
def relStep (ix : List (String × String)) (rel : RelT) (g : Graph)
    (t : Option String) : Graph :=
  let source_id := ixResolve ix rel.source_node
  match t with
  | some tname =>
      let target_id := ixResolve ix tname
      if g.hasNode source_id && g.hasNode target_id then
        g.addEdge source_id target_id (relEdgeData rel)
      else g
  | none => g

/-- One iteration of `_add_relationships`'s loop: add one relationship edge
per resolvable target, then retain the record iff it had multiple targets. -/
def addRelationship (h : HG) (rel : RelT) : HG :=
  { h with
    graph := (relTargets rel).foldl (relStep h.node_index rel) h.graph
    hyperedges :=
      if (relTargets rel).length > 1 then h.hyperedges ++ [Hyperedge.rel rel]
      else h.hyperedges }

/-- The attribute dict attached to each derivation edge. -/
def derivEdgeData (deriv : DerivT) : EdgeData where
  edge_type := "derivation"
  relationship_name := none
  strength := none
  hyperedge_id := some (deriv.hyperedge_id.getD "")
  inference_ty := some (deriv.inference_ty.getD "deductive")
  confidence_impact := some (deriv.confidence_impact.getD (95/100))
  description := some (deriv.description.getD "")

/-- The body of `_add_derivations`'s inner source loop: the source id is
resolved through the name index, the target id is `deriv.get('target_node',
'')` used as-is (not resolved). -/
def derivStep (ix : List (String × String)) (deriv : DerivT) (g : Graph)
    (source : String) : Graph :=
  let source_id := ixResolve ix source
  let target_id := deriv.target_node.getD ""
  if g.hasNode source_id && g.hasNode target_id then
    g.addEdge source_id target_id (derivEdgeData deriv)
  else g

/-- One iteration of `_add_derivations`'s loop; the record is always
retained as a hyperedge. -/
def addDerivation (h : HG) (deriv : DerivT) : HG :=
  { h with
    graph := (deriv.source_nodes.getD []).foldl (derivStep h.node_index deriv) h.graph
    hyperedges := h.hyperedges ++ [Hyperedge.deriv deriv] }

/-- Model of `SCMLexHypergraph.load_from_tuples`, minus file I/O and statistics:
each of the six groups is read with `data[...][...]`, so a missing group is
a `KeyError` (modelled as `none`); otherwise the four node groups and the
two hyperedge groups are folded in order. -/
def load_from_tuples (data : IngestPayload) : Option HG :=
  match data.principles, data.rules, data.concepts, data.domains,
      data.relationships, data.derivations with
  | some ps, some rs, some cs, some ds, some rels, some derivs =>
      let h1 := ps.foldl addPrinciple HG.empty
      let h2 := rs.foldl addRule h1
      let h3 := cs.foldl addConcept h2
      let h4 := ds.foldl addDomain h3
      let h5 := rels.foldl addRelationship h4
      let h6 := derivs.foldl addDerivation h5
      some h6
  | _, _, _, _, _, _ => none

/-! ## The query engine (`HypergraphQuery`)

`HypergraphQuery.__init__` unpickles exactly the builder's
graph/hyperedges/node_index, so queries are modelled directly on `HG`. -/

/-- Result dict of `find_related_principles`. -/
structure RelatedView where
  id : String
  name : String
  description : String
  relationship : String
  strength : ℚ
  deriving DecidableEq

/-- Model of `HypergraphQuery.find_related_principles`: resolve the name (empty on a
falsy id), then keep outgoing `relationship` edges whose target node is a
principle.  Edge traversal order is modelled as edge insertion order. -/
def find_related_principles (h : HG) (principle_name : String) : List RelatedView :=
  match truthyId (ixLookup h.node_index principle_name) with
  | none => []
  | some principle_id =>
      h.graph.edges.filterMap (fun e =>
        if e.1 = principle_id ∧ e.2.2.edge_type = "relationship" then
          let target_data := h.graph.getNode e.2.1
          if target_data.node_type = "principle" then
            some { id := e.2.1
                   name := target_data.name.getD ""
                   description := target_data.description.getD ""
                   relationship := e.2.2.relationship_name.getD "related-to"
                   strength := e.2.2.strength.getD (9/10) }
          else none
        else none)

/-- Result dict of `find_rules_derived_from_principle`. -/
structure DerivedRuleView where
  id : String
  name : String
  description : String
  jurisdiction : String
  legal_domain : String
  confidence : ℚ
  inference_ty : String
  deriving DecidableEq

/-- Model of `HypergraphQuery.find_rules_derived_from_principle`: resolve the name,
then follow outgoing `derivation` edges, reading each target's node dict. -/
def find_rules_derived_from_principle (h : HG) (principle_name : String) :
    List DerivedRuleView :=
  match truthyId (ixLookup h.node_index principle_name) with
  | none => []
  | some principle_id =>
      h.graph.edges.filterMap (fun e =>
        if e.1 = principle_id ∧ e.2.2.edge_type = "derivation" then
          let target_data := h.graph.getNode e.2.1
          some { id := e.2.1
                 name := target_data.name.getD ""
                 description := target_data.description.getD ""
                 jurisdiction := target_data.jurisdiction.getD ""
                 legal_domain := target_data.legal_domain.getD ""
                 confidence := target_data.confidence.getD (95/100)
                 inference_ty := e.2.2.inference_ty.getD "deductive" }
        else none)

/-! ## Path search (models of the networkx calls) -/

/-- The successor multiset of `u`: one entry per outgoing edge, in insertion
order (a multigraph's `G.edges(u)` iteration yields parallel edges). -/
def Graph.childTargets (g : Graph) (u : String) : List String :=
  (g.edges.filter (fun e => e.1 = u)).map (fun e => e.2.1)

/-- Model of `nx.all_simple_paths`'s recursive search: all simple paths from
`u` to `target` that use at most `fuel` edges and avoid `visited`
(`visited` contains the nodes of the path so far, including `u`). -/
def simplePathsAux (g : Graph) (target : String) :
    Nat → String → List String → List (List String)
  | 0, u, _ => if u = target then [[u]] else []
  | fuel + 1, u, visited =>
      if u = target then [[u]]
      else
        ((g.childTargets u).filter (fun v => ¬ v ∈ visited)).flatMap
          (fun v => (simplePathsAux g target fuel v (v :: visited)).map
            (fun p => u :: p))

/-- Model of `nx.all_simple_paths(graph, s, t, cutoff)`: every simple path
with at most `cutoff` edges; none when the endpoints coincide. -/
def allSimplePaths (g : Graph) (s t : String) (cutoff : Nat) : List (List String) :=
  if s = t then [] else simplePathsAux g t cutoff s [s]

/-- Model of unweighted `nx.shortest_path(graph, s, t)`: the first path found
at the smallest usable edge bound (hence of minimal length); `none` mirrors
the `NetworkXNoPath` branch. -/
def shortest_path (g : Graph) (s t : String) : Option (List String) :=
  (List.range (g.nodes.length + 1)).findSome?
    (fun fuel => (simplePathsAux g t fuel s [s]).head?)

/-! ## Inference chains -/

/-- Reading the selected edge dict into the `edge_to_next` step fields. -/
def mkEdgeToNext (ed : String × String × EdgeData) : EdgeToNext where
  ty := ed.2.2.edge_type
  inference_ty := ed.2.2.inference_ty.getD ""
  confidence_impact := ed.2.2.confidence_impact.getD 1

/-- The `edge_to_next` dict for the step from `u` to `v`:
`graph.get_edge_data(u, v)` returns the parallel edges keyed `0, 1, ...` in
insertion order and the code reads key `0`, i.e. the first-inserted edge;
`none` mirrors the `if edge_data:` guard when no edge exists. -/
def edgeToNextFor (g : Graph) (u v : String) : Option EdgeToNext :=
  ((g.edges.filter (fun e => e.1 = u ∧ e.2.1 = v)).head?).map mkEdgeToNext

/-- One chain step dict for the node at position `i` of the path. -/
def chainNodeItem (g : Graph) (i : Nat) (node_id : String)
    (e : Option EdgeToNext) : ChainItem :=
  let node_data := g.getNode node_id
  { step := i + 1
    id := node_id
    name := node_data.name.getD ""
    ty := node_data.node_type
    level := node_data.level.getD 0
    confidence := node_data.confidence.getD 1
    edge_to_next := e }

/-- The chain-building loop of `build_inference_chain`: each node of the
path becomes a step dict, all but the last carrying `edge_to_next`. -/
def mkChain (g : Graph) : Nat → List String → List ChainItem
  | _, [] => []
  | i, [u] => [chainNodeItem g i u none]
  | i, u :: v :: rest =>
      chainNodeItem g i u (edgeToNextFor g u v) :: mkChain g (i + 1) (v :: rest)

/-- Model of `HypergraphQuery.build_inference_chain`. -/
def build_inference_chain (h : HG) (start_principle end_rule : String) :
    Option (List ChainItem) :=
  match truthyId (ixLookup h.node_index start_principle),
      truthyId (ixLookup h.node_index end_rule) with
  | some start_id, some end_id =>
      match shortest_path h.graph start_id end_id with
      | some path => some (mkChain h.graph 0 path)
      | none => none
  | _, _ => none

/-- One entry of a detailed path returned by `find_all_paths`. -/
structure PathItem where
  step : Nat
  id : String
  name : String
  ty : String
  confidence : ℚ
  deriving DecidableEq

/-- The detailed-path loop of `find_all_paths`. -/
def detailPathAux (g : Graph) : Nat → List String → List PathItem
  | _, [] => []
  | i, u :: rest =>
      let node_data := g.getNode u
      { step := i + 1
        id := u
        name := node_data.name.getD ""
        ty := node_data.node_type
        confidence := node_data.confidence.getD 1 } :: detailPathAux g (i + 1) rest

/-- Model of `HypergraphQuery.find_all_paths`. -/
def find_all_paths (h : HG) (start_principle end_rule : String)
    (max_length : Nat) : List (List PathItem) :=
  match truthyId (ixLookup h.node_index start_principle),
      truthyId (ixLookup h.node_index end_rule) with
  | some start_id, some end_id =>
      (allSimplePaths h.graph start_id end_id max_length).map (detailPathAux h.graph 0)
  | _, _ => []

/-! ## Builder invariants -/

theorem foldl_preserves {α β : Type} (P : β → Prop) (f : β → α → β)
    (hf : ∀ b a, P b → P (f b a)) :
    ∀ (l : List α) (b : β), P b → P (l.foldl f b) := by
  intro l
  induction l with
  | nil => intro b hb; exact hb
  | cons a l ih => intro b hb; exact ih (f b a) (hf b a hb)

theorem hasNode_iff (g : Graph) (x : String) :
    g.hasNode x = true ↔ ∃ p ∈ g.nodes, p.1 = x := by
  simp [Graph.hasNode]

theorem addNode_edges (g : Graph) (id : String) (d : NodeData) :
    (g.addNode id d).edges = g.edges := by
  unfold Graph.addNode
  split_ifs <;> rfl

theorem addEdge_nodes (g : Graph) (u v : String) (d : EdgeData) :
    (g.addEdge u v d).nodes = g.nodes := rfl

theorem hasNode_addEdge (g : Graph) (u v x : String) (d : EdgeData) :
    (g.addEdge u v d).hasNode x = g.hasNode x := rfl

theorem hasNode_addNode_of_hasNode {g : Graph} {x : String} (id : String)
    (d : NodeData) (hx : g.hasNode x = true) :
    (g.addNode id d).hasNode x = true := by
  rw [hasNode_iff] at hx ⊢
  obtain ⟨p, hp, hpx⟩ := hx
  unfold Graph.addNode
  split_ifs
  · refine ⟨(if p.1 = id then (p.1, p.2.merge d) else p), List.mem_map_of_mem _ hp, ?_⟩
    split_ifs <;> simpa
  · exact ⟨p, List.mem_append_left _ hp, hpx⟩

theorem hasNode_addNode_self (g : Graph) (id : String) (d : NodeData) :
    (g.addNode id d).hasNode id = true := by
  unfold Graph.addNode
  split_ifs with h
  · rw [hasNode_iff] at h ⊢
    obtain ⟨p, hp, hpx⟩ := h
    refine ⟨(if p.1 = id then (p.1, p.2.merge d) else p), List.mem_map_of_mem _ hp, ?_⟩
    rw [if_pos hpx]
    exact hpx
  · rw [hasNode_iff]
    exact ⟨(id, d), List.mem_append_right _ (List.mem_singleton_self _), rfl⟩

/-- No edge dangles: both endpoints of every edge are nodes. -/
def EdgesClosed (g : Graph) : Prop :=
  ∀ e ∈ g.edges, g.hasNode e.1 = true ∧ g.hasNode e.2.1 = true

theorem edgesClosed_addNode {g : Graph} (id : String) (d : NodeData)
    (h : EdgesClosed g) : EdgesClosed (g.addNode id d) := by
  intro e he
  rw [addNode_edges] at he
  obtain ⟨h1, h2⟩ := h e he
  exact ⟨hasNode_addNode_of_hasNode id d h1, hasNode_addNode_of_hasNode id d h2⟩

theorem mem_addEdge {g : Graph} {u v : String} {d : EdgeData}
    {e : String × String × EdgeData} (he : e ∈ (g.addEdge u v d).edges) :
    e ∈ g.edges ∨ e = (u, v, d) := by
  have he' : e ∈ g.edges ++ [(u, v, d)] := he
  rcases List.mem_append.mp he' with h1 | h1
  · exact Or.inl h1
  · exact Or.inr (List.mem_singleton.mp h1)

theorem edgesClosed_addEdge {g : Graph} {u v : String} (d : EdgeData)
    (h : EdgesClosed g) (hu : g.hasNode u = true) (hv : g.hasNode v = true) :
    EdgesClosed (g.addEdge u v d) := by
  intro e he
  rcases mem_addEdge he with h1 | h1
  · exact h e h1
  · subst h1
    exact ⟨hu, hv⟩

theorem edgesClosed_addPrinciple {h : HG} (p : PrincipleT)
    (hc : EdgesClosed h.graph) : EdgesClosed (addPrinciple h p).graph :=
  edgesClosed_addNode _ _ hc

theorem edgesClosed_addRule {h : HG} (r : RuleT)
    (hc : EdgesClosed h.graph) : EdgesClosed (addRule h r).graph :=
  edgesClosed_addNode _ _ hc

theorem edgesClosed_addConcept {h : HG} (c : ConceptT)
    (hc : EdgesClosed h.graph) : EdgesClosed (addConcept h c).graph :=
  edgesClosed_addNode _ _ hc

theorem edgesClosed_addDomain {h : HG} (d : DomainT)
    (hc : EdgesClosed h.graph) : EdgesClosed (addDomain h d).graph :=
  edgesClosed_addNode _ _ hc

theorem edgesClosed_relStep {g : Graph} (ix : List (String × String))
    (rel : RelT) (t : Option String) (hg : EdgesClosed g) :
    EdgesClosed (relStep ix rel g t) := by
  unfold relStep
  cases t with
  | none => exact hg
  | some tname =>
      simp only
      split_ifs with hguard
      · simp only [Bool.and_eq_true] at hguard
        exact edgesClosed_addEdge _ hg hguard.1 hguard.2
      · exact hg

theorem edgesClosed_addRelationship {h : HG} (rel : RelT)
    (hc : EdgesClosed h.graph) : EdgesClosed (addRelationship h rel).graph :=
  foldl_preserves EdgesClosed _ (fun _ t => edgesClosed_relStep h.node_index rel t)
    (relTargets rel) h.graph hc

theorem edgesClosed_derivStep {g : Graph} (ix : List (String × String))
    (deriv : DerivT) (source : String) (hg : EdgesClosed g) :
    EdgesClosed (derivStep ix deriv g source) := by
  unfold derivStep
  simp only
  split_ifs with hguard
  · simp only [Bool.and_eq_true] at hguard
    exact edgesClosed_addEdge _ hg hguard.1 hguard.2
  · exact hg

theorem edgesClosed_addDerivation {h : HG} (deriv : DerivT)
    (hc : EdgesClosed h.graph) : EdgesClosed (addDerivation h deriv).graph :=
  foldl_preserves EdgesClosed _ (fun _ s => edgesClosed_derivStep h.node_index deriv s)
    (deriv.source_nodes.getD []) h.graph hc

/-- Inversion of a successful build: all six groups are present and the
result is the six-phase fold pipeline. -/
theorem load_inv {data : IngestPayload} {h : HG}
    (hload : load_from_tuples data = some h) :
    ∃ ps rs cs ds rels derivs,
      data.principles = some ps ∧ data.rules = some rs ∧
      data.concepts = some cs ∧ data.domains = some ds ∧
      data.relationships = some rels ∧ data.derivations = some derivs ∧
      h = derivs.foldl addDerivation
            (rels.foldl addRelationship
              (ds.foldl addDomain
                (cs.foldl addConcept
                  (rs.foldl addRule
                    (ps.foldl addPrinciple HG.empty))))) := by
  unfold load_from_tuples at hload
  rcases data with ⟨ops, ors, ocs, ods, orels, oderivs⟩
  cases ops <;> cases ors <;> cases ocs <;> cases ods <;> cases orels <;> cases oderivs <;>
    first
    | exact Option.noConfusion hload
    | exact ⟨_, _, _, _, _, _, rfl, rfl, rfl, rfl, rfl, rfl,
        (Option.some.inj hload).symm⟩

theorem edgesClosed_load {data : IngestPayload} {h : HG}
    (hload : load_from_tuples data = some h) : EdgesClosed h.graph := by
  obtain ⟨ps, rs, cs, ds, rels, derivs, -, -, -, -, -, -, rfl⟩ := load_inv hload
  refine foldl_preserves (fun h => EdgesClosed h.graph) addDerivation
    (fun b a hb => edgesClosed_addDerivation a hb) derivs _ ?_
  refine foldl_preserves (fun h => EdgesClosed h.graph) addRelationship
    (fun b a hb => edgesClosed_addRelationship a hb) rels _ ?_
  refine foldl_preserves (fun h => EdgesClosed h.graph) addDomain
    (fun b a hb => edgesClosed_addDomain a hb) ds _ ?_
  refine foldl_preserves (fun h => EdgesClosed h.graph) addConcept
    (fun b a hb => edgesClosed_addConcept a hb) cs _ ?_
  refine foldl_preserves (fun h => EdgesClosed h.graph) addRule
    (fun b a hb => edgesClosed_addRule a hb) rs _ ?_
  refine foldl_preserves (fun h => EdgesClosed h.graph) addPrinciple
    (fun b a hb => edgesClosed_addPrinciple a hb) ps _ ?_
  intro e he
  exact absurd he (by simp [HG.empty])

/-- Every name-index value is the id of an existing node. -/
def IndexOk (h : HG) : Prop :=
  ∀ p ∈ h.node_index, h.graph.hasNode p.2 = true

theorem mem_ixSet {ix : List (String × String)} {k v : String}
    {q : String × String} (hq : q ∈ ixSet ix k v) : q = (k, v) ∨ q ∈ ix := by
  rcases List.mem_cons.mp hq with h1 | h1
  · exact Or.inl h1
  · exact Or.inr (List.mem_of_mem_filter h1)

theorem indexOk_addNode {h : HG} {name : Option String} {id : String}
    {d : NodeData} (hi : IndexOk h) :
    IndexOk (HG.mk (h.graph.addNode id d) h.hyperedges
      (indexWith h.node_index name id)) := by
  intro q hq
  simp only at hq ⊢
  cases name with
  | none => exact hasNode_addNode_of_hasNode _ _ (hi q hq)
  | some n =>
      rcases mem_ixSet hq with rfl | hq1
      · exact hasNode_addNode_self _ _ _
      · exact hasNode_addNode_of_hasNode _ _ (hi q hq1)

theorem indexOk_addPrinciple {h : HG} (p : PrincipleT) (hi : IndexOk h) :
    IndexOk (addPrinciple h p) := indexOk_addNode hi

theorem indexOk_addRule {h : HG} (r : RuleT) (hi : IndexOk h) :
    IndexOk (addRule h r) := indexOk_addNode hi

theorem indexOk_addConcept {h : HG} (c : ConceptT) (hi : IndexOk h) :
    IndexOk (addConcept h c) := indexOk_addNode hi

theorem indexOk_addDomain {h : HG} (d : DomainT) (hi : IndexOk h) :
    IndexOk (addDomain h d) := indexOk_addNode hi

theorem relStep_nodes (ix : List (String × String)) (rel : RelT) (g : Graph)
    (t : Option String) : (relStep ix rel g t).nodes = g.nodes := by
  unfold relStep
  cases t with
  | none => rfl
  | some tname =>
      simp only
      split_ifs <;> rfl

theorem derivStep_nodes (ix : List (String × String)) (deriv : DerivT)
    (g : Graph) (source : String) :
    (derivStep ix deriv g source).nodes = g.nodes := by
  unfold derivStep
  simp only
  split_ifs <;> rfl

theorem foldl_relStep_nodes (ix : List (String × String)) (rel : RelT)
    (ts : List (Option String)) (g : Graph) :
    (ts.foldl (relStep ix rel) g).nodes = g.nodes := by
  induction ts generalizing g with
  | nil => rfl
  | cons t ts ih => rw [List.foldl_cons, ih, relStep_nodes]

theorem foldl_derivStep_nodes (ix : List (String × String)) (deriv : DerivT)
    (srcs : List String) (g : Graph) :
    (srcs.foldl (derivStep ix deriv) g).nodes = g.nodes := by
  induction srcs generalizing g with
  | nil => rfl
  | cons s srcs ih => rw [List.foldl_cons, ih, derivStep_nodes]

theorem hasNode_of_nodes_eq {g g' : Graph} (hn : g'.nodes = g.nodes) (x : String) :
    g'.hasNode x = g.hasNode x := by
  unfold Graph.hasNode
  rw [hn]

theorem indexOk_addRelationship {h : HG} (rel : RelT) (hi : IndexOk h) :
    IndexOk (addRelationship h rel) := by
  intro q hq
  have hn : (addRelationship h rel).graph.nodes = h.graph.nodes :=
    foldl_relStep_nodes _ _ _ _
  rw [hasNode_of_nodes_eq hn]
  exact hi q hq

theorem indexOk_addDerivation {h : HG} (deriv : DerivT) (hi : IndexOk h) :
    IndexOk (addDerivation h deriv) := by
  intro q hq
  have hn : (addDerivation h deriv).graph.nodes = h.graph.nodes :=
    foldl_derivStep_nodes _ _ _ _
  rw [hasNode_of_nodes_eq hn]
  exact hi q hq

theorem indexOk_load {data : IngestPayload} {h : HG}
    (hload : load_from_tuples data = some h) : IndexOk h := by
  obtain ⟨ps, rs, cs, ds, rels, derivs, -, -, -, -, -, -, rfl⟩ := load_inv hload
  refine foldl_preserves IndexOk addDerivation
    (fun b a hb => indexOk_addDerivation a hb) derivs _ ?_
  refine foldl_preserves IndexOk addRelationship
    (fun b a hb => indexOk_addRelationship a hb) rels _ ?_
  refine foldl_preserves IndexOk addDomain
    (fun b a hb => indexOk_addDomain a hb) ds _ ?_
  refine foldl_preserves IndexOk addConcept
    (fun b a hb => indexOk_addConcept a hb) cs _ ?_
  refine foldl_preserves IndexOk addRule
    (fun b a hb => indexOk_addRule a hb) rs _ ?_
  refine foldl_preserves IndexOk addPrinciple
    (fun b a hb => indexOk_addPrinciple a hb) ps _ ?_
  intro q hq
  exact absurd hq (by simp [HG.empty])

theorem isSome_map_snd {α β : Type} (f : α → β) (o : Option α) :
    (o.map f).isSome = o.isSome := by cases o <;> rfl

theorem hasNode_getNode_isSome {g : Graph} {id : String}
    (h : g.hasNode id = true) : (g.getNode? id).isSome := by
  rw [hasNode_iff] at h
  obtain ⟨p, hp, hpx⟩ := h
  unfold Graph.getNode?
  rw [isSome_map_snd, List.find?_isSome]
  exact ⟨p, hp, by simpa using hpx⟩

/-! ## Hyperedge retention and edge provenance -/

theorem addRelationship_hyperedges (h : HG) (rel : RelT) :
    (addRelationship h rel).hyperedges =
      h.hyperedges ++
        (if (relTargets rel).length > 1 then [Hyperedge.rel rel] else []) := by
  unfold addRelationship
  split_ifs <;> simp

theorem relPhase_hyperedges (rels : List RelT) (h : HG) :
    (rels.foldl addRelationship h).hyperedges =
      h.hyperedges ++
        (rels.filter (fun rel => (relTargets rel).length > 1)).map Hyperedge.rel := by
  induction rels generalizing h with
  | nil => simp
  | cons rel rels ih =>
      rw [List.foldl_cons, ih, addRelationship_hyperedges]
      by_cases hlen : (relTargets rel).length > 1
      · rw [if_pos hlen, List.filter_cons_of_pos (by simpa using hlen)]
        simp
      · rw [if_neg hlen, List.filter_cons_of_neg (by simpa using hlen)]
        simp

theorem derivPhase_hyperedges (derivs : List DerivT) (h : HG) :
    (derivs.foldl addDerivation h).hyperedges =
      h.hyperedges ++ derivs.map Hyperedge.deriv := by
  induction derivs generalizing h with
  | nil => simp
  | cons deriv derivs ih =>
      rw [List.foldl_cons, ih]
      simp [addDerivation]

theorem hyperedgeStore_load {data : IngestPayload} {h : HG}
    (hload : load_from_tuples data = some h) :
    h.hyperedges =
      ((data.relationships.getD []).filter
          (fun rel => (relTargets rel).length > 1)).map Hyperedge.rel ++
        (data.derivations.getD []).map Hyperedge.deriv := by
  obtain ⟨ps, rs, cs, ds, rels, derivs, hps, hrs, hcs, hds, hrels, hderivs, rfl⟩ :=
    load_inv hload
  rw [hrels, hderivs]
  rw [derivPhase_hyperedges, relPhase_hyperedges]
  have hnode : ∀ hgg : HG,
      (ds.foldl addDomain
        (cs.foldl addConcept (rs.foldl addRule (ps.foldl addPrinciple hgg)))).hyperedges
        = hgg.hyperedges := by
    intro hgg
    have e1 : ∀ (l : List PrincipleT) (b : HG),
        (l.foldl addPrinciple b).hyperedges = b.hyperedges := by
      intro l; induction l with
      | nil => intro b; rfl
      | cons a l ih => intro b; rw [List.foldl_cons, ih]; rfl
    have e2 : ∀ (l : List RuleT) (b : HG),
        (l.foldl addRule b).hyperedges = b.hyperedges := by
      intro l; induction l with
      | nil => intro b; rfl
      | cons a l ih => intro b; rw [List.foldl_cons, ih]; rfl
    have e3 : ∀ (l : List ConceptT) (b : HG),
        (l.foldl addConcept b).hyperedges = b.hyperedges := by
      intro l; induction l with
      | nil => intro b; rfl
      | cons a l ih => intro b; rw [List.foldl_cons, ih]; rfl
    have e4 : ∀ (l : List DomainT) (b : HG),
        (l.foldl addDomain b).hyperedges = b.hyperedges := by
      intro l; induction l with
      | nil => intro b; rfl
      | cons a l ih => intro b; rw [List.foldl_cons, ih]; rfl
    rw [e4, e3, e2, e1]
  rw [hnode HG.empty]
  simp [HG.empty, Option.getD]

/-- The four node phases create no edges. -/
theorem nodePhase_edges (ps : List PrincipleT) (rs : List RuleT)
    (cs : List ConceptT) (ds : List DomainT) :
    (ds.foldl addDomain (cs.foldl addConcept (rs.foldl addRule
      (ps.foldl addPrinciple HG.empty)))).graph.edges = [] := by
  have e1 : ∀ (l : List PrincipleT) (b : HG),
      (l.foldl addPrinciple b).graph.edges = b.graph.edges := by
    intro l
    induction l with
    | nil => intro b; rfl
    | cons a l ih =>
        intro b
        rw [List.foldl_cons, ih]
        exact addNode_edges _ _ _
  have e2 : ∀ (l : List RuleT) (b : HG),
      (l.foldl addRule b).graph.edges = b.graph.edges := by
    intro l
    induction l with
    | nil => intro b; rfl
    | cons a l ih =>
        intro b
        rw [List.foldl_cons, ih]
        exact addNode_edges _ _ _
  have e3 : ∀ (l : List ConceptT) (b : HG),
      (l.foldl addConcept b).graph.edges = b.graph.edges := by
    intro l
    induction l with
    | nil => intro b; rfl
    | cons a l ih =>
        intro b
        rw [List.foldl_cons, ih]
        exact addNode_edges _ _ _
  have e4 : ∀ (l : List DomainT) (b : HG),
      (l.foldl addDomain b).graph.edges = b.graph.edges := by
    intro l
    induction l with
    | nil => intro b; rfl
    | cons a l ih =>
        intro b
        rw [List.foldl_cons, ih]
        exact addNode_edges _ _ _
  rw [e4, e3, e2, e1]
  rfl

/-- The name index is finalized before the edge phases. -/
theorem relPhase_index (rels : List RelT) (h : HG) :
    (rels.foldl addRelationship h).node_index = h.node_index := by
  induction rels generalizing h with
  | nil => rfl
  | cons rel rels ih => rw [List.foldl_cons, ih]; rfl

theorem derivPhase_index (derivs : List DerivT) (h : HG) :
    (derivs.foldl addDerivation h).node_index = h.node_index := by
  induction derivs generalizing h with
  | nil => rfl
  | cons deriv derivs ih => rw [List.foldl_cons, ih]; rfl

theorem mem_relStep {g : Graph} {ix : List (String × String)} {rel : RelT}
    {t : Option String} {e : String × String × EdgeData}
    (he : e ∈ (relStep ix rel g t).edges) :
    e ∈ g.edges ∨ e.2.2.edge_type = "relationship" := by
  unfold relStep at he
  cases t with
  | none => exact Or.inl he
  | some tname =>
      simp only at he
      split_ifs at he
      · rcases mem_addEdge he with h1 | h1
        · exact Or.inl h1
        · subst h1; exact Or.inr rfl
      · exact Or.inl he

theorem mem_foldl_relStep {ix : List (String × String)} {rel : RelT}
    (ts : List (Option String)) (g : Graph) {e : String × String × EdgeData}
    (he : e ∈ (ts.foldl (relStep ix rel) g).edges) :
    e ∈ g.edges ∨ e.2.2.edge_type = "relationship" := by
  induction ts generalizing g with
  | nil => exact Or.inl he
  | cons t ts ih =>
      rw [List.foldl_cons] at he
      rcases ih _ he with h1 | h1
      · exact mem_relStep h1
      · exact Or.inr h1

theorem relPhase_edge_types (rels : List RelT) (h : HG)
    (hbase : ∀ e ∈ h.graph.edges, e.2.2.edge_type = "relationship") :
    ∀ e ∈ (rels.foldl addRelationship h).graph.edges,
      e.2.2.edge_type = "relationship" := by
  induction rels generalizing h with
  | nil => exact hbase
  | cons rel rels ih =>
      rw [List.foldl_cons]
      refine ih _ ?_
      intro e he
      rcases mem_foldl_relStep _ _ he with h1 | h1
      · exact hbase e h1
      · exact h1

theorem mem_derivStep {g : Graph} {ix : List (String × String)} {deriv : DerivT}
    {source : String} {e : String × String × EdgeData}
    (he : e ∈ (derivStep ix deriv g source).edges) :
    e ∈ g.edges ∨
      e = (ixResolve ix source, deriv.target_node.getD "", derivEdgeData deriv) := by
  unfold derivStep at he
  simp only at he
  split_ifs at he
  · exact mem_addEdge he
  · exact Or.inl he

theorem mem_foldl_derivStep {ix : List (String × String)} {deriv : DerivT}
    (srcs : List String) (g : Graph) {e : String × String × EdgeData}
    (he : e ∈ (srcs.foldl (derivStep ix deriv) g).edges) :
    e ∈ g.edges ∨ ∃ source ∈ srcs,
      e = (ixResolve ix source, deriv.target_node.getD "", derivEdgeData deriv) := by
  induction srcs generalizing g with
  | nil => exact Or.inl he
  | cons s srcs ih =>
      rw [List.foldl_cons] at he
      rcases ih _ he with h1 | h1
      · rcases mem_derivStep h1 with h2 | h2
        · exact Or.inl h2
        · exact Or.inr ⟨s, List.mem_cons_self s srcs, h2⟩
      · obtain ⟨source, hs, hse⟩ := h1
        exact Or.inr ⟨source, List.mem_cons_of_mem s hs, hse⟩

theorem mem_derivPhase (derivs : List DerivT) (h : HG)
    {e : String × String × EdgeData}
    (he : e ∈ (derivs.foldl addDerivation h).graph.edges) :
    e ∈ h.graph.edges ∨ ∃ deriv ∈ derivs, ∃ source ∈ deriv.source_nodes.getD [],
      e = (ixResolve h.node_index source, deriv.target_node.getD "",
        derivEdgeData deriv) := by
  induction derivs generalizing h with
  | nil => exact Or.inl he
  | cons deriv derivs ih =>
      rw [List.foldl_cons] at he
      rcases ih _ he with h1 | h1
      · rcases mem_foldl_derivStep _ _ h1 with h2 | h2
        · exact Or.inl h2
        · obtain ⟨source, hs, hse⟩ := h2
          exact Or.inr ⟨deriv, List.mem_cons_self _ _, source, hs, hse⟩
      · obtain ⟨d, hd, source, hs, hse⟩ := h1
        have hix : (addDerivation h deriv).node_index = h.node_index := rfl
        rw [hix] at hse
        exact Or.inr ⟨d, List.mem_cons_of_mem _ hd, source, hs, hse⟩

/-! ## Properties of the bounded simple-path search -/

theorem simplePathsAux_shape (g : Graph) (t : String) :
    ∀ (fuel : Nat) (u : String) (visited : List String),
      ∀ p ∈ simplePathsAux g t fuel u visited,
        p.head? = some u ∧ p.length ≤ fuel + 1 := by
  intro fuel
  induction fuel with
  | zero =>
      intro u visited p hp
      unfold simplePathsAux at hp
      split_ifs at hp with h
      · rcases List.mem_singleton.mp hp with rfl
        exact ⟨rfl, by simp⟩
      · exact absurd hp (List.not_mem_nil p)
  | succ fuel ih =>
      intro u visited p hp
      unfold simplePathsAux at hp
      split_ifs at hp with h
      · rcases List.mem_singleton.mp hp with rfl
        exact ⟨rfl, by simp⟩
      · rw [List.mem_flatMap] at hp
        obtain ⟨v, hv, hp⟩ := hp
        rw [List.mem_map] at hp
        obtain ⟨q, hq, rfl⟩ := hp
        obtain ⟨hqh, hql⟩ := ih v (v :: visited) q hq
        exact ⟨rfl, by simpa using Nat.succ_le_succ hql⟩

theorem simplePathsAux_nodup (g : Graph) (t : String) :
    ∀ (fuel : Nat) (u : String) (visited : List String), u ∈ visited →
      ∀ p ∈ simplePathsAux g t fuel u visited,
        p.Nodup ∧ ∀ x ∈ p, x ∈ visited → x = u := by
  intro fuel
  induction fuel with
  | zero =>
      intro u visited hu p hp
      unfold simplePathsAux at hp
      split_ifs at hp with h
      · rcases List.mem_singleton.mp hp with rfl
        exact ⟨List.nodup_singleton u, fun x hx _ => List.mem_singleton.mp hx⟩
      · exact absurd hp (List.not_mem_nil p)
  | succ fuel ih =>
      intro u visited hu p hp
      unfold simplePathsAux at hp
      split_ifs at hp with h
      · rcases List.mem_singleton.mp hp with rfl
        exact ⟨List.nodup_singleton u, fun x hx _ => List.mem_singleton.mp hx⟩
      · rw [List.mem_flatMap] at hp
        obtain ⟨v, hv, hp⟩ := hp
        rw [List.mem_map] at hp
        obtain ⟨q, hq, rfl⟩ := hp
        rw [List.mem_filter] at hv
        have hvv : ¬ v ∈ visited := by simpa using hv.2
        obtain ⟨hqnd, hq3⟩ := ih v (v :: visited) (List.mem_cons_self v visited) q hq
        constructor
        · refine List.nodup_cons.mpr ⟨?_, hqnd⟩
          intro huq
          have : u = v := hq3 u huq (List.mem_cons_of_mem v hu)
          exact hvv (this ▸ hu)
        · intro x hx hxv
          rcases List.mem_cons.mp hx with rfl | hxq
          · rfl
          · have : x = v := hq3 x hxq (List.mem_cons_of_mem v hxv)
            exact absurd (this ▸ hxv) hvv

theorem simplePathsAux_chain (g : Graph) (t : String) :
    ∀ (fuel : Nat) (u : String) (visited : List String),
      ∀ p ∈ simplePathsAux g t fuel u visited,
        List.Chain' (fun a b => b ∈ g.childTargets a) p := by
  intro fuel
  induction fuel with
  | zero =>
      intro u visited p hp
      unfold simplePathsAux at hp
      split_ifs at hp with h
      · rcases List.mem_singleton.mp hp with rfl
        exact List.chain'_singleton u
      · exact absurd hp (List.not_mem_nil p)
  | succ fuel ih =>
      intro u visited p hp
      unfold simplePathsAux at hp
      split_ifs at hp with h
      · rcases List.mem_singleton.mp hp with rfl
        exact List.chain'_singleton u
      · rw [List.mem_flatMap] at hp
        obtain ⟨v, hv, hp⟩ := hp
        rw [List.mem_map] at hp
        obtain ⟨q, hq, rfl⟩ := hp
        rw [List.mem_filter] at hv
        have hqc := ih v (v :: visited) q hq
        have hqh := (simplePathsAux_shape g t fuel v (v :: visited) q hq).1
        refine List.chain'_cons'.mpr ⟨?_, hqc⟩
        intro y hy
        rw [hqh] at hy
        rcases Option.mem_some_iff.mp hy with rfl
        exact hv.1

theorem simplePathsAux_mono (g : Graph) (t : String) :
    ∀ (k : Nat) {k' : Nat}, k ≤ k' →
      ∀ (u : String) (visited : List String) (p : List String),
        p ∈ simplePathsAux g t k u visited → p ∈ simplePathsAux g t k' u visited := by
  intro k
  induction k with
  | zero =>
      intro k' hk u visited p hp
      unfold simplePathsAux at hp
      split_ifs at hp with h
      · rcases List.mem_singleton.mp hp with rfl
        cases k' with
        | zero =>
            unfold simplePathsAux
            rw [if_pos h]
            exact List.mem_singleton_self _
        | succ k'' =>
            unfold simplePathsAux
            rw [if_pos h]
            exact List.mem_singleton_self _
      · exact absurd hp (List.not_mem_nil p)
  | succ k ih =>
      intro k' hk u visited p hp
      obtain ⟨k'', rfl⟩ : ∃ k'', k' = k'' + 1 := ⟨k' - 1, by omega⟩
      unfold simplePathsAux at hp ⊢
      split_ifs at hp ⊢ with h
      · exact hp
      · rw [List.mem_flatMap] at hp ⊢
        obtain ⟨v, hv, hp⟩ := hp
        refine ⟨v, hv, ?_⟩
        rw [List.mem_map] at hp ⊢
        obtain ⟨q, hq, rfl⟩ := hp
        exact ⟨q, ih (by omega) v (v :: visited) q hq, rfl⟩

theorem detailPathAux_map_id (g : Graph) :
    ∀ (i : Nat) (p : List String),
      (detailPathAux g i p).map PathItem.id = p := by
  intro i p
  induction p generalizing i with
  | nil => rfl
  | cons u rest ih => simp [detailPathAux, ih]

theorem detailPathAux_length (g : Graph) :
    ∀ (i : Nat) (p : List String),
      (detailPathAux g i p).length = p.length := by
  intro i p
  induction p generalizing i with
  | nil => rfl
  | cons u rest ih => simp [detailPathAux, ih]

/-! ## Chain construction lemmas -/

theorem head_filter_eq_find {α : Type} (p : α → Bool) (l : List α) :
    (l.filter p).head? = l.find? p := by
  induction l with
  | nil => rfl
  | cons a l ih =>
      by_cases h : p a = true
      · rw [List.filter_cons_of_pos h, List.find?_cons_of_pos _ h]
        rfl
      · rw [List.filter_cons_of_neg (by simpa using h),
          List.find?_cons_of_neg _ (by simpa using h)]
        exact ih

theorem getElem?_zero_head {α : Type} (l : List α) : l[0]? = l.head? := by
  cases l <;> simp

theorem chainNodeItem_id (g : Graph) (i : Nat) (u : String)
    (e : Option EdgeToNext) : (chainNodeItem g i u e).id = u := rfl

theorem mkChain_head (g : Graph) (j : Nat) (v : String) (rest : List String) :
    ∃ e, (mkChain g j (v :: rest)).head? = some (chainNodeItem g j v e) := by
  cases rest with
  | nil => exact ⟨none, rfl⟩
  | cons w rest' => exact ⟨edgeToNextFor g v w, rfl⟩

theorem mkChain_consecutive (g : Graph) :
    ∀ (path : List String) (j i : Nat) (a b : ChainItem),
      (mkChain g j path)[i]? = some a →
      (mkChain g j path)[i + 1]? = some b →
      a.edge_to_next = edgeToNextFor g a.id b.id := by
  intro path
  induction path with
  | nil =>
      intro j i a b ha _
      simp [mkChain] at ha
  | cons u rest ih =>
      cases rest with
      | nil =>
          intro j i a b _ hb
          have hlen : (mkChain g j [u]).length = 1 := rfl
          have := List.getElem?_eq_none (by rw [hlen]; omega :
            (mkChain g j [u]).length ≤ i + 1)
          rw [this] at hb
          exact Option.noConfusion hb
      | cons v rest' =>
          intro j i a b ha hb
          rw [show mkChain g j (u :: v :: rest') =
              chainNodeItem g j u (edgeToNextFor g u v) ::
                mkChain g (j + 1) (v :: rest') from rfl] at ha hb
          cases i with
          | zero =>
              rw [List.getElem?_cons_zero] at ha
              rw [List.getElem?_cons_succ, getElem?_zero_head] at hb
              have ha' : a = chainNodeItem g j u (edgeToNextFor g u v) :=
                (Option.some.inj ha).symm
              obtain ⟨e, he⟩ := mkChain_head g (j + 1) v rest'
              rw [he] at hb
              have hb2 : b = chainNodeItem g (j + 1) v e :=
                (Option.some.inj hb).symm
              subst ha'
              subst hb2
              rfl
          | succ i' =>
              rw [List.getElem?_cons_succ] at ha hb
              exact ih (j + 1) i' a b ha hb

/-- All multiplicative factors contributed by a chain item lie in `[0, 1]`. -/
def itemBounded (item : ChainItem) : Prop :=
  0 ≤ item.confidence ∧ item.confidence ≤ 1 ∧
    (match item.edge_to_next with
     | some e => 0 ≤ e.confidence_impact ∧ e.confidence_impact ≤ 1
     | none => True)

instance (item : ChainItem) : Decidable (itemBounded item) := by
  unfold itemBounded
  rcases he : item.edge_to_next with _ | e <;> exact inferInstance

theorem itemFactor_nonneg {item : ChainItem} (h : itemBounded item) :
    0 ≤ itemFactor item := by
  obtain ⟨h0, h1, h2⟩ := h
  unfold itemFactor
  cases he : item.edge_to_next with
  | none => simpa using h0
  | some e =>
      rw [he] at h2
      exact mul_nonneg h0 h2.1

theorem itemFactor_le_one {item : ChainItem} (h : itemBounded item) :
    itemFactor item ≤ 1 := by
  obtain ⟨h0, h1, h2⟩ := h
  unfold itemFactor
  cases he : item.edge_to_next with
  | none => simpa using h1
  | some e =>
      rw [he] at h2
      exact mul_le_one₀ h1 h2.1 h2.2

theorem rawConfidence_nonneg {l : List ChainItem}
    (h : ∀ item ∈ l, itemBounded item) : 0 ≤ rawConfidenceFrom 1 l := by
  induction l with
  | nil => simp [rawConfidenceFrom_nil]
  | cons x l ih =>
      rw [rawConfidenceFrom_cons, rawConfidenceFrom_eq_mul]
      have hx := itemFactor_nonneg (h x (List.mem_cons_self x l))
      have hl := ih (fun item hm => h item (List.mem_cons_of_mem x hm))
      have : 0 ≤ 1 * itemFactor x := by linarith
      exact mul_nonneg this hl

/-! ## Claim theorems -/

/-- A one-node chain whose node stores confidence `1/2`. -/
def soloItem : ChainItem :=
  { step := 1, id := "P1", name := "solo-node", ty := "principle",
    level := 1, confidence := 1/2, edge_to_next := none }

/-- Claim C1 (counterexample): `compute_path_confidence` on a single-node chain
multiplies in that node's stored confidence; for a node of confidence `1/2`
the result is `1/2`, not `1.0` as the claim states. -/
theorem claim_C1_counterexample : compute_path_confidence [soloItem] ≠ 1 := by
  rw [compute_path_confidence_eq_round4, rawConfidenceFrom_cons,
    rawConfidenceFrom_nil]
  norm_num [soloItem, itemFactor, round4, roundHalfEven]

/-- Claim C1 (amended): `compute_path_confidence` returns the product of every
step's node confidence and every present edge `confidence_impact`, rounded
half-to-even at four decimal digits; the empty chain yields exactly `1.0`,
and a single-node chain yields that node's own factor rounded (so `1.0` only
when the node's factor rounds to `1.0`). -/
theorem claim_C1_product :
    (∀ path : List ChainItem,
        compute_path_confidence path =
          round4 ((path.map (fun item => item.confidence)).prod *
            (path.filterMap (fun item =>
              item.edge_to_next.map (fun e => e.confidence_impact))).prod))
    ∧ compute_path_confidence [] = 1
    ∧ ∀ item : ChainItem,
        compute_path_confidence [item] = round4 (itemFactor item) := by
  refine ⟨fun path => ?_, ?_, fun item => ?_⟩
  · rw [compute_path_confidence_eq_round4, rawConfidence_eq_prod]
  · rw [compute_path_confidence_eq_round4, rawConfidenceFrom_nil]
    norm_num [round4, roundHalfEven]
  · rw [compute_path_confidence_eq_round4, rawConfidenceFrom_cons,
      rawConfidenceFrom_nil, one_mul]

/-- A payload with all four groups the spec calls required, but without
`nodes.concepts` (`nodes.domains` present). -/
def payloadNoConcepts : IngestPayload :=
  { principles := some [], rules := some [], concepts := none,
    domains := some [], relationships := some [], derivations := some [] }

/-- Claim C3 (counterexample): a payload carrying `nodes.principles`,
`nodes.rules`, `hyperedges.relationships` and `hyperedges.derivations` but
no `nodes.concepts` key still fails to build (`data['nodes']['concepts']`
is an unguarded dict access), contradicting the claimed optionality. -/
theorem claim_C3_counterexample :
    load_from_tuples payloadNoConcepts = none := rfl

/-- Claim C3 (amended): the build succeeds exactly when all six groups
`nodes.{principles,rules,concepts,domains}` and
`hyperedges.{relationships,derivations}` are present; `nodes.concepts` and
`nodes.domains` are required like the others, not optional. -/
theorem claim_C3_required_groups (data : IngestPayload) :
    (load_from_tuples data).isSome ↔
      data.principles.isSome ∧ data.rules.isSome ∧ data.concepts.isSome ∧
        data.domains.isSome ∧ data.relationships.isSome ∧
        data.derivations.isSome := by
  rcases data with ⟨ops, ors, ocs, ods, orels, oderivs⟩
  cases ops <;> cases ors <;> cases ocs <;> cases ods <;> cases orels <;>
    cases oderivs <;> simp [load_from_tuples]

/-- The spec's scenario payload: principle P1 `pacta-sunt-servanda`
(confidence 1.0), rule R1 `enforce-contract` (confidence 0.95), and one
derivation hyperedge from `["pacta-sunt-servanda"]` to `R1` with the
default `confidence_impact` 0.95. -/
def principleP1 : PrincipleT where
  node_id := "P1"
  name := some "pacta-sunt-servanda"
  description := none
  domains := some ["contract"]
  confidence := some 1
  provenance := none
  inference_ty := none
  application_context := none

def ruleR1 : RuleT where
  node_id := "R1"
  level := none
  name := some "enforce-contract"
  description := none
  jurisdiction := some "ZA"
  legal_domain := some "contract"
  confidence := some (95/100)
  derived_from := some ["pacta-sunt-servanda"]
  inference_ty := none

def derivationP1R1 : DerivT where
  source_nodes := some ["pacta-sunt-servanda"]
  target_node := some "R1"
  inference_ty := none
  confidence_impact := none
  hyperedge_id := none
  description := none

def payloadScenario : IngestPayload where
  principles := some [principleP1]
  rules := some [ruleR1]
  concepts := some []
  domains := some []
  relationships := some []
  derivations := some [derivationP1R1]

/-- The snapshot built from the scenario payload. -/
def snapScenario : HG := (load_from_tuples payloadScenario).getD HG.empty

/-- The first step of the scenario chain. -/
def chainStep1 : ChainItem where
  step := 1
  id := "P1"
  name := "pacta-sunt-servanda"
  ty := "principle"
  level := 1
  confidence := 1
  edge_to_next := some ⟨"derivation", "deductive", 95/100⟩

/-- The second (last) step of the scenario chain. -/
def chainStep2 : ChainItem where
  step := 2
  id := "R1"
  name := "enforce-contract"
  ty := "rule"
  level := 2
  confidence := 95/100
  edge_to_next := none

/-- The chain `build_inference_chain` produces on the scenario. -/
def chainScenario : List ChainItem := [chainStep1, chainStep2]

theorem scenario_chain :
    build_inference_chain snapScenario "pacta-sunt-servanda" "enforce-contract" =
      some chainScenario := rfl

theorem scenario_confidence :
    compute_path_confidence chainScenario = 9025/10000 := by
  simp only [chainScenario]
  rw [compute_path_confidence_eq_round4, rawConfidenceFrom_cons,
    rawConfidenceFrom_cons, rawConfidenceFrom_nil]
  norm_num [chainStep1, chainStep2, itemFactor, round4, roundHalfEven]

/-- Claim C2 (counterexample): on the scenario graph the inference chain's
path confidence is not `0.95`: `compute_path_confidence` also multiplies in
rule R1's node confidence `0.95`, giving `0.9025`. -/
theorem claim_C2_counterexample :
    (build_inference_chain snapScenario "pacta-sunt-servanda"
        "enforce-contract").map compute_path_confidence ≠ some (95/100) := by
  rw [scenario_chain]
  show some (compute_path_confidence chainScenario) ≠ some (95/100)
  rw [scenario_confidence]
  simp only [ne_eq, Option.some.injEq]
  norm_num

/-- Claim C2 (amended): `inferenceChain("pacta-sunt-servanda",
"enforce-contract")` returns a 2-step chain whose `pathConfidence` is
`1.0 * 0.95 (edge confidence_impact) * 0.95 (R1's node confidence)
= 0.9025`. -/
theorem claim_C2_scenario :
    (build_inference_chain snapScenario "pacta-sunt-servanda"
        "enforce-contract").map
      (fun chain => (chain.length, compute_path_confidence chain)) =
      some (2, 9025/10000) := by
  rw [scenario_chain]
  show some (chainScenario.length, compute_path_confidence chainScenario) = _
  rw [scenario_confidence]
  rfl

theorem scenario_edges :
    snapScenario.graph.edges = [("P1", "R1", derivEdgeData derivationP1R1)] := rfl

/-- Claim C4: after every successful build, both endpoints of every edge are
present in the node set (edges are only ever added under a `has_node` guard
on both resolved endpoints; failing the guard skips the edge and nothing
else). -/
theorem claim_C4_no_dangling (data : IngestPayload) (h : HG)
    (hload : load_from_tuples data = some h) :
    ∀ e ∈ h.graph.edges,
      h.graph.hasNode e.1 = true ∧ h.graph.hasNode e.2.1 = true :=
  edgesClosed_load hload

theorem claim_C4_witness :
    snapScenario.graph.hasNode "P1" = true ∧
      snapScenario.graph.hasNode "R1" = true :=
  claim_C4_no_dangling payloadScenario snapScenario rfl
    ("P1", "R1", derivEdgeData derivationP1R1)
    (by rw [scenario_edges]; exact List.mem_singleton_self _)

/-- Claim C10: every value stored in the name index is the id of a node
present in the graph, so a query that resolves a (truthy) name through the
index finds the node's attribute dict. -/
theorem claim_C10_index_sound (data : IngestPayload) (h : HG)
    (hload : load_from_tuples data = some h) :
    (∀ p ∈ h.node_index, h.graph.hasNode p.2 = true) ∧
      ∀ name id, truthyId (ixLookup h.node_index name) = some id →
        (h.graph.getNode? id).isSome := by
  have hix := indexOk_load hload
  refine ⟨hix, fun name id hres => ?_⟩
  have hlook : ixLookup h.node_index name = some id := by
    cases hl : ixLookup h.node_index name with
    | none => rw [hl] at hres; exact Option.noConfusion hres
    | some s =>
        rw [hl] at hres
        simp only [truthyId] at hres
        by_cases hs : s = ""
        · rw [if_pos hs] at hres; exact Option.noConfusion hres
        · rw [if_neg hs] at hres
          have : s = id := Option.some.inj hres
          rw [← this]
  have hmem : (name, id) ∈ h.node_index := by
    unfold ixLookup at hlook
    cases hf : h.node_index.find? (fun p => p.1 = name) with
    | none => rw [hf] at hlook; exact Option.noConfusion hlook
    | some q =>
        rw [hf] at hlook
        have hq := List.mem_of_find?_eq_some hf
        have hq1 : q.1 = name := by simpa using List.find?_some hf
        have hq2 : q.2 = id := Option.some.inj hlook
        rw [← hq1, ← hq2]
        simpa using hq
  exact hasNode_getNode_isSome (hix _ hmem)

theorem claim_C10_witness :
    snapScenario.graph.hasNode "R1" = true ∧
      (snapScenario.graph.getNode? "R1").isSome := by
  have h := claim_C10_index_sound payloadScenario snapScenario rfl
  refine ⟨?_, h.2 "enforce-contract" "R1" rfl⟩
  refine h.1 ("enforce-contract", "R1") ?_
  rw [show snapScenario.node_index =
    [("enforce-contract", "R1"), ("pacta-sunt-servanda", "P1")] from rfl]
  exact List.mem_cons_self _ _

/-- A derivation hyperedge whose `target_node` is the *name* of rule R1,
not its raw node id. -/
def derivationNamedTarget : DerivT where
  source_nodes := some ["pacta-sunt-servanda"]
  target_node := some "enforce-contract"
  inference_ty := none
  confidence_impact := none
  hyperedge_id := none
  description := none

def payloadNamedTarget : IngestPayload where
  principles := some [principleP1]
  rules := some [ruleR1]
  concepts := some []
  domains := some []
  relationships := some []
  derivations := some [derivationNamedTarget]

def snapNamedTarget : HG := (load_from_tuples payloadNamedTarget).getD HG.empty

/-- Claim C5 (counterexample): the derivation target `"enforce-contract"` is a
name the index maps to `"R1"`, yet no edge is created — `_add_derivations`
uses `target_node` as-is without resolving it through the index, so the
existence check fails on the raw name. -/
theorem claim_C5_counterexample :
    (load_from_tuples payloadNamedTarget).isSome ∧
      ixLookup snapNamedTarget.node_index "enforce-contract" = some "R1" ∧
      snapNamedTarget.graph.edges = [] :=
  ⟨rfl, rfl, rfl⟩

/-- Claim C5 (amended): only derivation *source* endpoints get
resolve-or-pass-through treatment; the target endpoint of every derivation
edge is the record's raw `target_node` value (defaulted to `""`), never an
index-resolved id. -/
theorem claim_C5_raw_target (data : IngestPayload) (h : HG)
    (hload : load_from_tuples data = some h) :
    ∀ e ∈ h.graph.edges, e.2.2.edge_type = "derivation" →
      ∃ deriv ∈ data.derivations.getD [],
        ∃ source ∈ deriv.source_nodes.getD [],
          e.1 = ixResolve h.node_index source ∧
          e.2.1 = deriv.target_node.getD "" := by
  obtain ⟨ps, rs, cs, ds, rels, derivs, hps, hrs, hcs, hds, hrels, hderivs, rfl⟩ :=
    load_inv hload
  intro e he hty
  rcases mem_derivPhase derivs _ he with h1 | h1
  · have hrel := relPhase_edge_types rels _ ?_ e h1
    · rw [hty] at hrel
      exact absurd hrel (by decide)
    · intro e' he'
      rw [nodePhase_edges] at he'
      exact absurd he' (List.not_mem_nil e')
  · obtain ⟨deriv, hd, source, hs, rfl⟩ := h1
    rw [hderivs]
    refine ⟨deriv, by simpa using hd, source, hs, ?_, rfl⟩
    rw [derivPhase_index]

theorem claim_C5_witness :
    "P1" = ixResolve snapScenario.node_index "pacta-sunt-servanda" ∧
      "R1" = derivationP1R1.target_node.getD "" := by
  have h := claim_C5_raw_target payloadScenario snapScenario rfl
    ("P1", "R1", derivEdgeData derivationP1R1)
    (by rw [scenario_edges]; exact List.mem_singleton_self _) rfl
  obtain ⟨deriv, hd, source, hs, h1, h2⟩ := h
  have hd' : deriv = derivationP1R1 := by
    rcases List.mem_singleton.mp hd with rfl
    rfl
  subst hd'
  have hs' : source = "pacta-sunt-servanda" := by
    rcases List.mem_singleton.mp hs with rfl
    rfl
  subst hs'
  exact ⟨h1, h2⟩

/-- A relationship hyperedge whose single target name matches no node. -/
def relGhost : RelT where
  source_node := "pacta-sunt-servanda"
  target_nodes := none
  target_node := some "ghost-target"
  relationship_name := none
  strength := none
  hyperedge_id := none

def payloadGhost : IngestPayload where
  principles := some [principleP1]
  rules := some []
  concepts := some []
  domains := some []
  relationships := some [relGhost]
  derivations := some []

def snapGhost : HG := (load_from_tuples payloadGhost).getD HG.empty

/-- Claim C6 (counterexample): a relationship hyperedge whose single target
name matches no node produces no edge and `relatedPrinciples` of the source
is empty — but the hyperedge is *not* retained: `_add_relationships` only
appends to the hyperedge store when the record has more than one target. -/
theorem claim_C6_counterexample :
    (load_from_tuples payloadGhost).isSome ∧
      snapGhost.graph.edges = [] ∧
      find_related_principles snapGhost "pacta-sunt-servanda" = [] ∧
      snapGhost.hyperedges = [] :=
  ⟨rfl, rfl, rfl, rfl⟩

/-- Claim C6 (amended): an unresolvable participant skips the edge without
error, but the hyperedge store retains exactly the relationship records
with more than one declared target (plus every derivation record); a
single-target relationship hyperedge is never retained, resolvable or
not. -/
theorem claim_C6_retention (data : IngestPayload) (h : HG)
    (hload : load_from_tuples data = some h) :
    h.hyperedges =
      ((data.relationships.getD []).filter
          (fun rel => (relTargets rel).length > 1)).map Hyperedge.rel ++
        (data.derivations.getD []).map Hyperedge.deriv :=
  hyperedgeStore_load hload

theorem claim_C6_witness :
    snapGhost.hyperedges =
      ((payloadGhost.relationships.getD []).filter
          (fun rel => (relTargets rel).length > 1)).map Hyperedge.rel ++
        (payloadGhost.derivations.getD []).map Hyperedge.deriv :=
  claim_C6_retention payloadGhost snapGhost rfl

theorem chain_detail_of_chain (g : Graph) (R : String → String → Prop)
    (q : List String) (i : Nat) (hq : List.Chain' R q) :
    List.Chain' (fun a b => R a.id b.id) (detailPathAux g i q) := by
  have h1 : (detailPathAux g i q).map PathItem.id = q := detailPathAux_map_id g i q
  have h2 : List.Chain' R ((detailPathAux g i q).map PathItem.id) := by
    rw [h1]
    exact hq
  exact (List.chain'_map PathItem.id).mp h2

/-- Claim C7: `find_all_paths(s, t, k)` returns only nonempty directed paths
of at most `k` edges with pairwise-distinct node ids; it returns `[]` when
either name fails to resolve (the search itself is a total function, so it
terminates on every graph, cycles included); and it is monotone in the
bound: every detailed path returned for `k` is returned unaltered for any
`k' ≥ k`. -/
theorem claim_C7_bounded_paths (h : HG) (s t : String) (k k' : Nat)
    (hk : k ≤ k') :
    (∀ p ∈ find_all_paths h s t k,
        1 ≤ p.length ∧ p.length ≤ k + 1 ∧ (p.map PathItem.id).Nodup ∧
        List.Chain' (fun a b => b.id ∈ h.graph.childTargets a.id) p ∧
        p ∈ find_all_paths h s t k') ∧
      ((truthyId (ixLookup h.node_index s) = none ∨
          truthyId (ixLookup h.node_index t) = none) →
        find_all_paths h s t k = []) := by
  constructor
  · intro p hp
    unfold find_all_paths at hp
    rcases hs : truthyId (ixLookup h.node_index s) with _ | sid
    · rw [hs] at hp
      exact absurd hp (List.not_mem_nil p)
    · rw [hs] at hp
      rcases ht : truthyId (ixLookup h.node_index t) with _ | tid
      · rw [ht] at hp
        exact absurd hp (List.not_mem_nil p)
      · rw [ht] at hp
        rw [List.mem_map] at hp
        obtain ⟨q, hq, rfl⟩ := hp
        unfold allSimplePaths at hq
        split_ifs at hq with hst
        · exact absurd hq (List.not_mem_nil q)
        · obtain ⟨hqh, hql⟩ := simplePathsAux_shape h.graph tid k sid [sid] q hq
          have hnodup := (simplePathsAux_nodup h.graph tid k sid [sid]
            (List.mem_singleton_self sid) q hq).1
          have hchain := simplePathsAux_chain h.graph tid k sid [sid] q hq
          have hmono := simplePathsAux_mono h.graph tid k hk sid [sid] q hq
          refine ⟨?_, ?_, ?_, ?_, ?_⟩
          · rw [detailPathAux_length]
            cases q with
            | nil => exact Option.noConfusion hqh
            | cons a l => simp
          · rw [detailPathAux_length]
            exact hql
          · rw [detailPathAux_map_id]
            exact hnodup
          · exact chain_detail_of_chain h.graph
              (fun x y => y ∈ h.graph.childTargets x) q 0 hchain
          · unfold find_all_paths
            rw [hs, ht, List.mem_map]
            refine ⟨q, ?_, rfl⟩
            unfold allSimplePaths
            rw [if_neg hst]
            exact hmono
  · intro hres
    unfold find_all_paths
    rcases hres with hres | hres
    · rw [hres]
    · rcases hs : truthyId (ixLookup h.node_index s) with _ | sid <;>
        rw [hres]

/-- The detailed path `find_all_paths` returns on the scenario graph. -/
def detailScenario : List PathItem :=
  [⟨1, "P1", "pacta-sunt-servanda", "principle", 1⟩,
   ⟨2, "R1", "enforce-contract", "rule", 95/100⟩]

theorem claim_C7_witness :
    detailScenario ∈ find_all_paths snapScenario "pacta-sunt-servanda"
        "enforce-contract" 2 ∧
      (detailScenario.map PathItem.id).Nodup := by
  have hmem : detailScenario ∈ find_all_paths snapScenario
      "pacta-sunt-servanda" "enforce-contract" 1 := by
    rw [show find_all_paths snapScenario "pacta-sunt-servanda"
      "enforce-contract" 1 = [detailScenario] from rfl]
    exact List.mem_singleton_self _
  have h := (claim_C7_bounded_paths snapScenario "pacta-sunt-servanda"
    "enforce-contract" 1 2 (by norm_num)).1 detailScenario hmem
  exact ⟨h.2.2.2.2, h.2.2.1⟩

theorem rawConfidenceFrom_append_singleton (m : List ChainItem)
    (y : ChainItem) :
    rawConfidenceFrom 1 (m ++ [y]) = rawConfidenceFrom 1 m * itemFactor y := by
  unfold rawConfidenceFrom
  rw [List.foldl_append]
  show rawConfidenceFrom (rawConfidenceFrom 1 m) [y] = _
  rw [rawConfidenceFrom_cons, rawConfidenceFrom_nil]
  rfl

/-- Claim C8: appending one more step to a chain — the old last step gains an
`edge_to_next` with impact `≤ 1` and a new final node of confidence `≤ 1` is
appended — never increases `compute_path_confidence` when all existing
factors lie in `[0, 1]`. -/
theorem claim_C8_append_monotone (l : List ChainItem) (last x : ChainItem)
    (e : EdgeToNext)
    (hl : ∀ item ∈ l ++ [last], itemBounded item)
    (hlast : last.edge_to_next = none)
    (he : 0 ≤ e.confidence_impact ∧ e.confidence_impact ≤ 1)
    (hx : itemBounded x) :
    compute_path_confidence
        ((l ++ [{ last with edge_to_next := some e }]) ++ [x]) ≤
      compute_path_confidence (l ++ [last]) := by
  rw [compute_path_confidence_eq_round4, compute_path_confidence_eq_round4]
  apply round4_mono
  rw [rawConfidenceFrom_append_singleton, rawConfidenceFrom_append_singleton,
    rawConfidenceFrom_append_singleton]
  have hfl : itemFactor { last with edge_to_next := some e } =
      last.confidence * e.confidence_impact := by
    simp [itemFactor]
  have hfactor_last : itemFactor last = last.confidence := by
    simp [itemFactor, hlast]
  have hbl : itemBounded last :=
    hl last (List.mem_append_right _ (List.mem_singleton_self _))
  have hrawl : 0 ≤ rawConfidenceFrom 1 l :=
    rawConfidence_nonneg (fun it hit => hl it (List.mem_append_left _ hit))
  have h1 : 0 ≤ last.confidence := hbl.1
  have hx0 := itemFactor_nonneg hx
  have hx1 := itemFactor_le_one hx
  rw [hfl, hfactor_last]
  have hA : 0 ≤ rawConfidenceFrom 1 l * (last.confidence * e.confidence_impact) :=
    mul_nonneg hrawl (mul_nonneg h1 he.1)
  calc rawConfidenceFrom 1 l * (last.confidence * e.confidence_impact) *
        itemFactor x
      ≤ rawConfidenceFrom 1 l * (last.confidence * e.confidence_impact) * 1 :=
        mul_le_mul_of_nonneg_left hx1 hA
    _ = rawConfidenceFrom 1 l * (last.confidence * e.confidence_impact) :=
        mul_one _
    _ ≤ rawConfidenceFrom 1 l * (last.confidence * 1) :=
        mul_le_mul_of_nonneg_left
          (mul_le_mul_of_nonneg_left he.2 h1) hrawl
    _ = rawConfidenceFrom 1 l * last.confidence := by rw [mul_one]

theorem claim_C8_witness :
    compute_path_confidence
        (([] ++ [{ chainStep2 with
            edge_to_next := some ⟨"derivation", "deductive", 9/10⟩ }]) ++
          [soloItem]) ≤
      compute_path_confidence ([] ++ [chainStep2]) := by
  refine claim_C8_append_monotone [] chainStep2 soloItem
    ⟨"derivation", "deductive", 9/10⟩ ?_ rfl (by norm_num) ?_
  · intro it hit
    rcases List.mem_singleton.mp hit with rfl
    refine ⟨by norm_num [chainStep2], by norm_num [chainStep2], ?_⟩
    rw [show chainStep2.edge_to_next = none from rfl]
    trivial
  · refine ⟨by norm_num [soloItem], by norm_num [soloItem], ?_⟩
    rw [show soloItem.edge_to_next = none from rfl]
    trivial

/-- Claim C9: the edge data attached to a chain step is taken from the
first-inserted (lowest internal insertion order) parallel edge between the
two consecutive nodes — `List.find?` over the edge list in insertion
order — never a maximum or an average over the parallel edges. -/
theorem claim_C9_first_parallel_edge (h : HG) (s t : String)
    (chain : List ChainItem) (hc : build_inference_chain h s t = some chain)
    (i : Nat) (a b : ChainItem) (ha : chain[i]? = some a)
    (hb : chain[i + 1]? = some b) :
    a.edge_to_next =
      (h.graph.edges.find? (fun ed => ed.1 = a.id ∧ ed.2.1 = b.id)).map
        mkEdgeToNext := by
  unfold build_inference_chain at hc
  rcases hstart : truthyId (ixLookup h.node_index s) with _ | sid
  · rw [hstart] at hc
    exact Option.noConfusion hc
  · rw [hstart] at hc
    rcases hend : truthyId (ixLookup h.node_index t) with _ | tid
    · rw [hend] at hc
      exact Option.noConfusion hc
    · rw [hend] at hc
      have hc2 : (match shortest_path h.graph sid tid with
          | some path => some (mkChain h.graph 0 path)
          | none => none) = some chain := hc
      rcases hsp : shortest_path h.graph sid tid with _ | path
      · rw [hsp] at hc2
        exact Option.noConfusion hc2
      · rw [hsp] at hc2
        obtain rfl := Option.some.inj hc2
        have hstep := mkChain_consecutive h.graph path 0 i a b ha hb
        rw [hstep]
        unfold edgeToNextFor
        rw [head_filter_eq_find]

/-- Parallel-edge scenario: two derivations from P1 to R1, the
first-inserted with `confidence_impact` 0.5, the second with 0.9. -/
def derivLow : DerivT where
  source_nodes := some ["pacta-sunt-servanda"]
  target_node := some "R1"
  inference_ty := none
  confidence_impact := some (1/2)
  hyperedge_id := none
  description := none

def derivHigh : DerivT where
  source_nodes := some ["pacta-sunt-servanda"]
  target_node := some "R1"
  inference_ty := none
  confidence_impact := some (9/10)
  hyperedge_id := none
  description := none

def payloadParallel : IngestPayload where
  principles := some [principleP1]
  rules := some [ruleR1]
  concepts := some []
  domains := some []
  relationships := some []
  derivations := some [derivLow, derivHigh]

def snapParallel : HG := (load_from_tuples payloadParallel).getD HG.empty

/-- The first chain step in the parallel-edge scenario: it carries the
first-inserted edge's impact 0.5. -/
def chainStep1Low : ChainItem :=
  { chainStep1 with edge_to_next := some ⟨"derivation", "deductive", 1/2⟩ }

def chainParallel : List ChainItem := [chainStep1Low, chainStep2]

theorem claim_C9_witness :
    chainStep1Low.edge_to_next = some ⟨"derivation", "deductive", 1/2⟩ ∧
      (1 : ℚ)/2 ≠ 9/10 ∧ (1 : ℚ)/2 ≠ (1/2 + 9/10) / 2 := by
  have h := claim_C9_first_parallel_edge snapParallel "pacta-sunt-servanda"
    "enforce-contract" chainParallel rfl 0 chainStep1Low chainStep2 rfl rfl
  refine ⟨?_, by norm_num, by norm_num⟩
  rw [h]
  rfl

end Coginlex
